import Mathlib

/-!
Verification of the AutoPyTorch pipeline configuration-space assembly and
hyperparameter-routing engine, as a shallow embedding of
`autoPyTorch/pipeline/base_pipeline.py`, `autoPyTorch/pipeline/components/base_choice.py`
and `autoPyTorch/datasets/base_dataset.py`.

Strings are embedded as `List Char`; Python dicts as ordered association
lists with Python's insert-or-update semantics (`dinsert`); exceptions as
`Except PErr`.
-/

namespace AutoPT

/-- Python strings, embedded as lists of characters. -/
abbrev Str := List Char

/-- Hyperparameter / init-param values appearing in configurations. -/
inductive CVal where
  | s (v : Str)
  | n (v : Int)
  | rstate (seed : Nat)
deriving DecidableEq, Repr

/-- Association-list dictionary used to embed Python dicts. -/
abbrev Dict := List (Str × CVal)

/-- First-match association lookup (Python dicts have unique keys, so this
is dict access on a well-formed dict). -/
def lookup (k : Str) : List (Str × CVal) → Option CVal
  | [] => none
  | (k', v) :: rest => if k' = k then some v else lookup k rest

/-- Association lookup for string-valued tables (include/exclude maps). -/
def lookupS (k : Str) : List (Str × List Str) → Option (List Str)
  | [] => none
  | (k', v) :: rest => if k' = k then some v else lookupS k rest

/-- Python dict assignment `d[k] = v`: update the value in place if the key
exists, otherwise append the new binding at the end. -/
def dinsert (k : Str) (v : CVal) : Dict → Dict
  | [] => [(k, v)]
  | (k', v') :: rest => if k' = k then (k, v) :: rest else (k', v') :: dinsert k v rest

/-- Python `del d[k]` on a well-formed dict (unique keys). -/
def eraseKey (k : Str) (d : Dict) : Dict :=
  d.filter (fun kv => decide (kv.1 ≠ k))

/-- Python `s.startswith(p)`. -/
def listPref : Str → Str → Bool
  | [], _ => true
  | _ :: _, [] => false
  | a :: ps, b :: bs => decide (a = b) && listPref ps bs

/-- Python `s.replace(pat, "", 1)`: delete the first (leftmost) occurrence
of the substring `pat`.  On a string known to start with `pat` this strips
the leading `pat` once. -/
def replaceOnce (pat : Str) : Str → Str
  | [] => []
  | c :: rest =>
    if listPref pat (c :: rest) then (c :: rest).drop pat.length
    else c :: replaceOnce pat rest

/-- Helper for `removeAll`: delete every (leftmost-first, non-overlapping)
occurrence of the non-empty pattern `a :: ps`.  The fuel argument (always
instantiated with the string length, which bounds the number of steps)
keeps the recursion structural. -/
def removeAllFuel (a : Char) (ps : Str) : Nat → Str → Str
  | 0, s => s
  | _ + 1, [] => []
  | fuel + 1, c :: rest =>
    if c = a ∧ listPref ps rest then removeAllFuel a ps fuel (rest.drop ps.length)
    else c :: removeAllFuel a ps fuel rest

/-- Python `s.replace(pat, "")`: delete every occurrence of `pat`
(left-to-right, non-overlapping).  `s.replace("", "")` is `s`. -/
def removeAll (pat : Str) (s : Str) : Str :=
  match pat with
  | [] => s
  | a :: ps => removeAllFuel a ps s.length s

/-- Does `pat` occur as a contiguous substring of `s`? -/
def containsSub (pat : Str) (s : Str) : Bool :=
  match s with
  | [] => listPref pat []
  | _ :: rest => listPref pat s || containsSub pat rest

/-- The key rewriting performed by `autoPyTorchChoice.set_hyperparameters`
(`base_choice.py` line 132): `param.replace(choice, "").replace(":", "")` —
first delete every occurrence of the selected component's name, then delete
every colon. -/
def stripKey (choice : Str) (param : Str) : Str :=
  removeAll [':'] (removeAll choice param)

/- ### Basic lemmas about the string and dict primitives -/

theorem listPref_iff (p s : Str) : listPref p s = true ↔ s.take p.length = p := by
  induction p generalizing s with
  | nil => simp [listPref]
  | cons a ps ih =>
    cases s with
    | nil => simp [listPref]
    | cons b bs =>
      constructor
      · intro h
        simp only [listPref, Bool.and_eq_true, decide_eq_true_eq] at h
        simp only [List.length_cons, List.take_succ_cons]
        rw [(ih bs).mp h.2, h.1]
      · intro h
        simp only [List.length_cons, List.take_succ_cons, List.cons.injEq] at h
        simp only [listPref, Bool.and_eq_true, decide_eq_true_eq]
        exact ⟨h.1.symm, (ih bs).mpr h.2⟩

theorem listPref_append (p t : Str) : listPref p (p ++ t) = true := by
  rw [listPref_iff]
  simp

theorem eq_append_drop_of_listPref {p s : Str} (h : listPref p s = true) :
    s = p ++ s.drop p.length := by
  rw [listPref_iff] at h
  conv_lhs => rw [← List.take_append_drop p.length s]
  rw [h]

/-- Stripping a fixed leading pattern is injective on strings that carry it. -/
theorem drop_inj_of_listPref {p a b : Str} (ha : listPref p a = true)
    (hb : listPref p b = true) (h : a.drop p.length = b.drop p.length) : a = b := by
  rw [eq_append_drop_of_listPref ha, eq_append_drop_of_listPref hb, h]

theorem replaceOnce_of_listPref {p s : Str} (h : listPref p s = true) :
    replaceOnce p s = s.drop p.length := by
  cases s with
  | nil =>
    cases p with
    | nil => rfl
    | cons a ps => cases h
  | cons c rest => rw [replaceOnce, if_pos h]

theorem lookup_dinsert (k k' : Str) (v : CVal) (d : Dict) :
    lookup k (dinsert k' v d) = if k' = k then some v else lookup k d := by
  induction d with
  | nil => simp [dinsert, lookup]
  | cons kv rest ih =>
    obtain ⟨k₀, v₀⟩ := kv
    by_cases h : k₀ = k'
    · subst h
      simp [dinsert, lookup]
      by_cases hk : k₀ = k <;> simp [hk, lookup]
    · simp [dinsert, h, lookup]
      by_cases hk : k₀ = k
      · subst hk
        have : ¬ k' = k₀ := fun hh => h hh.symm
        simp [this, lookup]
      · simp [hk, ih, lookup]

theorem lookup_append (k : Str) (d₁ d₂ : Dict) :
    lookup k (d₁ ++ d₂) =
      match lookup k d₁ with
      | some v => some v
      | none => lookup k d₂ := by
  induction d₁ with
  | nil => simp [lookup]
  | cons kv rest ih =>
    obtain ⟨k₀, v₀⟩ := kv
    by_cases h : k₀ = k <;> simp [lookup, h, ih]

/-- A `dinsert` with a fresh key appends the binding at the end. -/
theorem dinsert_of_not_mem {k : Str} (v : CVal) {d : Dict}
    (h : k ∉ d.map Prod.fst) : dinsert k v d = d ++ [(k, v)] := by
  induction d with
  | nil => simp [dinsert]
  | cons kv rest ih =>
    obtain ⟨k₀, v₀⟩ := kv
    simp only [List.map_cons, List.mem_cons, not_or] at h
    have hne : ¬ k₀ = k := fun hh => h.1 hh.symm
    simp [dinsert, hne, ih h.2]

/-- Folding Python-dict insertions over a list whose keys are pairwise
distinct and fresh for the accumulator just appends the list. -/
theorem foldl_dinsert_nodup (l : List (Str × CVal)) (d : Dict)
    (hfresh : ∀ kv ∈ l, kv.1 ∉ d.map Prod.fst)
    (hnd : (l.map Prod.fst).Nodup) :
    l.foldl (fun d kv => dinsert kv.1 kv.2 d) d = d ++ l := by
  induction l generalizing d with
  | nil => simp
  | cons kv rest ih =>
    obtain ⟨k₀, v₀⟩ := kv
    simp only [List.foldl_cons]
    rw [dinsert_of_not_mem v₀ (hfresh (k₀, v₀) (List.mem_cons_self _ _))]
    simp only [List.map_cons, List.nodup_cons] at hnd
    have hfresh' : ∀ kv ∈ rest, kv.1 ∉ (d ++ [(k₀, v₀)]).map Prod.fst := by
      intro kv hkv hmem
      rw [List.map_append] at hmem
      rcases List.mem_append.mp hmem with h | h
      · exact hfresh kv (List.mem_cons_of_mem _ hkv) h
      · simp only [List.map_cons, List.map_nil, List.mem_singleton] at h
        exact hnd.1 (h ▸ List.mem_map_of_mem Prod.fst hkv)
    rw [ih (d ++ [(k₀, v₀)]) hfresh' hnd.2, List.append_assoc]
    rfl

/-- The last-write-wins value of a key in a (possibly duplicated) binding
list: Python dict construction by successive assignment keeps the last. -/
def lastLookup (k : Str) (l : List (Str × CVal)) : Option CVal :=
  lookup k l.reverse

/-- Folding Python-dict insertions realizes last-write-wins semantics. -/
theorem lookup_foldl_dinsert (l : List (Str × CVal)) (d : Dict) (k : Str) :
    lookup k (l.foldl (fun d kv => dinsert kv.1 kv.2 d) d) =
      match lastLookup k l with
      | some v => some v
      | none => lookup k d := by
  induction l generalizing d with
  | nil => simp [lastLookup, lookup]
  | cons kv rest ih =>
    obtain ⟨k₀, v₀⟩ := kv
    simp only [List.foldl_cons, ih, lastLookup, List.reverse_cons, lookup_append]
    cases h : lookup k rest.reverse with
    | some v => simp
    | none =>
      simp only [lookup]
      by_cases hk : k₀ = k <;> simp [hk, lookup_dinsert]

/-- A conditional-insert fold is the plain insert fold of the filter-mapped
list (`for param in configuration: if cond: d[f param] = v`). -/
theorem foldl_dinsert_filterMap (p : Str × CVal → Bool) (f : Str × CVal → Str × CVal)
    (l : List (Str × CVal)) (d : Dict) :
    l.foldl (fun d kv => if p kv then dinsert (f kv).1 (f kv).2 d else d) d =
      (l.filterMap (fun kv => if p kv then some (f kv) else none)).foldl
        (fun d kv => dinsert kv.1 kv.2 d) d := by
  induction l generalizing d with
  | nil => simp
  | cons kv rest ih =>
    by_cases h : p kv <;> simp [h, ih]

/- ### Data model of the pipeline assembler -/

/-- The exceptions raised by the embedded code paths. -/
inductive PErr where
  | invalidIncludeKey (k : Str) (keys : List Str)
  | invalidExcludeKey (k : Str) (keys : List Str)
  | noValidPipeline
  | matchesNotBinary
  | includeExcludeTogether
  | unknownComponent (k : Str)
  | notSupported
  | configSpaceMismatch (diff : List Str)
  | keyError (k : Str)
  | typeError (k : Str)
  | invalidBatchSize (bs : Int)
  | invalidValShare
deriving DecidableEq, Repr

/-- Dataset properties: an opaque mapping, queried only by applicability
predicates. -/
abbrev Props := List (Str × Str)

/-- Component descriptor: registry name, applicability predicate over
dataset properties, and the names of its local hyperparameters. -/
structure CompDesc where
  name : Str
  applicable : Props → Bool
  space : List Str

/-- A pipeline step node: a Choice over components, a fixed component, a
nested pipeline, or an unrelated object (rejected by
`set_hyperparameters`).  Non-choice nodes carry their local hyperparameter
names. -/
inductive PNode where
  | choice (comps : List CompDesc)
  | component (space : List Str)
  | nested (space : List Str)
  | other (space : List Str)

/-- `isinstance(node, (autoPyTorchChoice, autoPyTorchComponent, BasePipeline))`
(base_pipeline.py line 183). -/
def PNode.supported : PNode → Bool
  | .other _ => false
  | _ => true

/-- A ConfigSpace `ConfigurationSpace`, reduced to the data its `__eq__`
compares: hyperparameters, conditions, forbidden clauses. -/
structure CSpace where
  hyperparameters : List Str
  conditions : List Str
  forbiddens : List Str
deriving DecidableEq, Repr

/-- Modelled from the spec: `autoPyTorchChoice.get_hyperparameter_search_space`
is abstract in `base_choice.py` (line 147 raises `NotImplementedError`; the
concrete Choice subclasses are outside src).  Per spec §4.1 it is one
categorical `__choice__` selector plus each candidate's local space
namespaced under that candidate's name. -/
def choiceLocalSpace (comps : List CompDesc) : List Str :=
  "__choice__".toList :: comps.flatMap (fun c => c.space.map (fun h => c.name ++ ':' :: h))

/-- The step-local space `node.get_hyperparameter_search_space(dataset_properties)`
re-derived at each `set_hyperparameters` call (base_pipeline.py line 165);
in the model a node's local space is data carried by the node. -/
def PNode.localSpace (_props : Props) : PNode → CSpace
  | .choice comps => ⟨choiceLocalSpace comps, [], []⟩
  | .component sp => ⟨sp, [], []⟩
  | .nested sp => ⟨sp, [], []⟩
  | .other sp => ⟨sp, [], []⟩

/-- A ConfigSpace `Configuration`: the space it was built against plus its
key-value assignment. -/
structure Configuration where
  space : CSpace
  values : Dict

/- ### BasePipeline.set_hyperparameters (C1) -/

/-- The inner loop of `BasePipeline.set_hyperparameters` (base_pipeline.py
lines 166-171): start from an empty dict and, for every configuration entry
whose key starts with `node_name + ":"`, assign its value under the key
with that prefix deleted once (`param.replace("%s:" % node_name, "", 1)`). -/
def subConfigDict (nodeName : Str) (configuration : Dict) : Dict :=
  configuration.foldl
    (fun d kv =>
      if listPref (nodeName ++ [':']) kv.1 then
        dinsert (replaceOnce (nodeName ++ [':']) kv.1) kv.2 d
      else d)
    []

/-- Declarative characterization of the extraction: exactly the entries
whose key carries the step prefix, with the prefix stripped. -/
def subEntries (nodeName : Str) (configuration : Dict) : Dict :=
  configuration.filterMap (fun kv =>
    if listPref (nodeName ++ [':']) kv.1 then
      some (kv.1.drop (nodeName ++ [':']).length, kv.2)
    else none)

/-- `BasePipeline.set_hyperparameters` (base_pipeline.py lines 148-190):
walk the steps in order; for each step build the step-local configuration
against the step's own re-derived local space from the prefix-extracted
sub-dict, extract `init_params` the same way, and dispatch to the node;
a node that is not a Choice, a Component or a nested Pipeline raises
`NotImplementedError("Not supported yet!")`.  The result records, per step,
the sub-configuration and sub-init-params handed to the node. -/
def setHyperparameters (props : Props) (steps : List (Str × PNode))
    (configuration : Dict) (init_params : Option Dict) :
    Except PErr (List (Str × Configuration × Option Dict)) :=
  match steps with
  | [] => .ok []
  | (node_name, node) :: rest =>
    let sub_configuration : Configuration :=
      ⟨node.localSpace props, subConfigDict node_name configuration⟩
    let sub_init := init_params.map (fun ip => subConfigDict node_name ip)
    if node.supported then
      match setHyperparameters props rest configuration init_params with
      | .ok tail => .ok ((node_name, sub_configuration, sub_init) :: tail)
      | .error e => .error e
    else .error .notSupported

theorem subEntries_map_fst (nodeName : Str) (cfg : Dict) :
    (subEntries nodeName cfg).map Prod.fst =
      ((cfg.filter (fun kv => listPref (nodeName ++ [':']) kv.1)).map Prod.fst).map
        (fun k => k.drop (nodeName ++ [':']).length) := by
  induction cfg with
  | nil => simp [subEntries]
  | cons kv rest ih =>
    by_cases h : listPref (nodeName ++ [':']) kv.1 = true <;>
      simp [subEntries, List.filterMap_cons, h, List.filter_cons] at ih ⊢ <;>
      exact ih

/-- On a configuration with pairwise-distinct keys (a Python dict), the
imperative fold equals the declarative extraction. -/
theorem subConfigDict_eq_subEntries (nodeName : Str) (cfg : Dict)
    (hnd : (cfg.map Prod.fst).Nodup) :
    subConfigDict nodeName cfg = subEntries nodeName cfg := by
  have hstep : subConfigDict nodeName cfg =
      (cfg.filterMap (fun kv =>
        if listPref (nodeName ++ [':']) kv.1 then
          some (replaceOnce (nodeName ++ [':']) kv.1, kv.2)
        else none)).foldl (fun d kv => dinsert kv.1 kv.2 d) [] :=
    foldl_dinsert_filterMap (fun kv => listPref (nodeName ++ [':']) kv.1)
      (fun kv => (replaceOnce (nodeName ++ [':']) kv.1, kv.2)) cfg []
  have hfm : (cfg.filterMap (fun kv =>
        if listPref (nodeName ++ [':']) kv.1 then
          some (replaceOnce (nodeName ++ [':']) kv.1, kv.2)
        else none)) = subEntries nodeName cfg := by
    apply List.filterMap_congr
    intro kv _
    by_cases h : listPref (nodeName ++ [':']) kv.1 = true
    · simp [h, replaceOnce_of_listPref h]
    · simp [h]
  rw [hstep, hfm]
  have hkeys : ((subEntries nodeName cfg).map Prod.fst).Nodup := by
    rw [subEntries_map_fst]
    have h1 : ((cfg.filter (fun kv => listPref (nodeName ++ [':']) kv.1)).map
        Prod.fst).Nodup := by
      have hsub : List.Sublist
          ((cfg.filter (fun kv => listPref (nodeName ++ [':']) kv.1)).map Prod.fst)
          (cfg.map Prod.fst) :=
        (List.filter_sublist cfg).map Prod.fst
      exact hnd.sublist hsub
    refine h1.map_on ?_
    intro x hx y hy hxy
    have hxp : listPref (nodeName ++ [':']) x = true := by
      obtain ⟨kv, hkv, rfl⟩ := List.mem_map.mp hx
      exact (List.mem_filter.mp hkv).2
    have hyp : listPref (nodeName ++ [':']) y = true := by
      obtain ⟨kv, hkv, rfl⟩ := List.mem_map.mp hy
      exact (List.mem_filter.mp hkv).2
    exact drop_inj_of_listPref hxp hyp hxy
  have := foldl_dinsert_nodup (subEntries nodeName cfg) [] (by simp) hkeys
  simpa using this

/-- Looking a stripped key up in the extracted sub-dict is looking the full
prefixed key up in the original flat configuration. -/
theorem lookup_subEntries (nodeName k : Str) (cfg : Dict) :
    lookup k (subEntries nodeName cfg) = lookup (nodeName ++ ':' :: k) cfg := by
  induction cfg with
  | nil => simp [subEntries, lookup]
  | cons kv rest ih =>
    obtain ⟨k₀, v₀⟩ := kv
    by_cases h : listPref (nodeName ++ [':']) k₀ = true
    · simp only [subEntries, List.filterMap_cons, h, if_pos] at ih ⊢
      simp only [lookup]
      have hiff : k₀.drop (nodeName ++ [':']).length = k ↔ k₀ = nodeName ++ ':' :: k := by
        constructor
        · intro hd
          have := eq_append_drop_of_listPref h
          rw [hd] at this
          simpa using this
        · intro he
          rw [he]
          simp
      by_cases hk : k₀.drop (nodeName ++ [':']).length = k
      · rw [if_pos hk, if_pos (hiff.mp hk)]
      · rw [if_neg hk, if_neg (fun hh => hk (hiff.mpr hh)), ih]
    · simp only [subEntries, List.filterMap_cons, h] at ih ⊢
      simp only [Bool.false_eq_true, if_false, lookup]
      have hne : ¬ k₀ = nodeName ++ ':' :: k := by
        intro he
        rw [he] at h
        have : listPref (nodeName ++ [':']) ((nodeName ++ [':']) ++ k) = true :=
          listPref_append _ _
        simp only [List.append_assoc, List.singleton_append] at this
        exact h this
      rw [if_neg hne]
      exact ih

/-- C1: for every pipeline and every configuration with pairwise-distinct
keys, `BasePipeline.set_hyperparameters` walks the steps in order and, for
each step named `n`, extracts exactly the configuration entries whose key
has prefix `n ++ ":"`, strips that prefix once, and builds a step-local
`Configuration` against the step's own re-derived local space from them;
the value routed to a step under a stripped key equals the original flat
configuration's value under the full prefixed key, for every key; and a
step that is not a Choice, Component or nested Pipeline is rejected as
unsupported. -/
theorem c1_set_hyperparameters_routing
    (props : Props) (steps : List (Str × PNode)) (cfg : Dict) (init : Option Dict)
    (hnd : (cfg.map Prod.fst).Nodup) :
    ((∀ p ∈ steps, p.2.supported = true) →
      setHyperparameters props steps cfg init =
        .ok (steps.map (fun p =>
          (p.1, ⟨p.2.localSpace props, subConfigDict p.1 cfg⟩,
            init.map (fun ip => subConfigDict p.1 ip))))) ∧
    ((∃ p ∈ steps, p.2.supported = false) →
      setHyperparameters props steps cfg init = .error .notSupported) ∧
    (∀ nodeName, subConfigDict nodeName cfg = subEntries nodeName cfg) ∧
    (∀ nodeName k, lookup k (subConfigDict nodeName cfg) =
      lookup (nodeName ++ ':' :: k) cfg) := by
  refine ⟨?_, ?_, ?_, ?_⟩
  · intro hall
    induction steps with
    | nil => rfl
    | cons p rest ih =>
      obtain ⟨n, node⟩ := p
      have hsup : node.supported = true := hall (n, node) (List.mem_cons_self _ _)
      have hrest := ih (fun q hq => hall q (List.mem_cons_of_mem _ hq))
      simp [setHyperparameters, hsup, hrest]
  · rintro ⟨p, hp, hbad⟩
    induction steps with
    | nil => cases hp
    | cons q rest ih =>
      obtain ⟨n, node⟩ := q
      by_cases hs : node.supported = true
      · rcases List.mem_cons.mp hp with h | h
        · rw [h] at hbad
          rw [hbad] at hs
          cases hs
        · have htail := ih h
          simp [setHyperparameters, hs, htail]
      · have hs' : node.supported = false := by
          cases hsup : node.supported
          · rfl
          · exact absurd hsup hs
        simp [setHyperparameters, hs']
  · intro nodeName
    exact subConfigDict_eq_subEntries nodeName cfg hnd
  · intro nodeName k
    rw [subConfigDict_eq_subEntries nodeName cfg hnd]
    exact lookup_subEntries nodeName k cfg

theorem c1_set_hyperparameters_routing_witness :
    (([("a:x".toList, CVal.n 1), ("b:y".toList, CVal.n 2)].map Prod.fst).Nodup) ∧
    lookup "x".toList
        (subConfigDict "a".toList [("a:x".toList, CVal.n 1), ("b:y".toList, CVal.n 2)]) =
      lookup ("a".toList ++ ':' :: "x".toList)
        [("a:x".toList, CVal.n 1), ("b:y".toList, CVal.n 2)] :=
  ⟨by decide,
    (c1_set_hyperparameters_routing [] [] [("a:x".toList, CVal.n 1), ("b:y".toList, CVal.n 2)]
      none (by decide)).2.2.2 "a".toList "x".toList⟩

/- ### autoPyTorchChoice.get_available_components (C7, C8) -/

/-- The skip test of the first branch of the registry filter
(`if include is not None and name not in include: continue`). -/
def skipByInc (inc : Option (List Str)) (nm : Str) : Bool :=
  match inc with
  | some l => decide (nm ∉ l)
  | none => false

/-- The skip test of the `elif` branch
(`elif exclude is not None and name in exclude: continue`). -/
def skipByExc (exc : Option (List Str)) (nm : Str) : Bool :=
  match exc with
  | some l => decide (nm ∈ l)
  | none => false

/-- A component survives the include/exclude filter iff neither skip test
fires. -/
def keepComp (inc exc : Option (List Str)) (nm : Str) : Bool :=
  !skipByInc inc nm && !skipByExc exc nm

/-- `autoPyTorchChoice.get_available_components` (base_choice.py lines
63-106): fails if both include and exclude are supplied; fails on the first
include entry naming a component outside the registry; then returns the
registry filtered by the include/exclude tests.  Names in `exclude` are
never validated against the registry. -/
def getAvailableComponents (components : List CompDesc)
    (inc exc : Option (List Str)) : Except PErr (List CompDesc) :=
  if inc.isSome ∧ exc.isSome then .error .includeExcludeTogether
  else
    match inc with
    | some l =>
      match l.find? (fun nm => !components.any (fun c => decide (c.name = nm))) with
      | some nm => .error (.unknownComponent nm)
      | none => .ok (components.filter (fun c => keepComp inc exc c.name))
    | none => .ok (components.filter (fun c => keepComp inc exc c.name))

/-- C8: whenever both `include` and `exclude` are non-None,
`get_available_components` fails with the configuration error, regardless
of the lists' contents; when at most one is supplied it never fails for
that reason. -/
theorem c8_include_exclude_conflict (components : List CompDesc)
    (inc exc : Option (List Str)) :
    (∀ a b, inc = some a → exc = some b →
      getAvailableComponents components inc exc = .error .includeExcludeTogether) ∧
    (inc = none ∨ exc = none →
      getAvailableComponents components inc exc ≠ .error .includeExcludeTogether) := by
  constructor
  · intro a b ha hb
    subst ha; subst hb
    simp [getAvailableComponents]
  · intro h
    have hni : ¬ (inc.isSome ∧ exc.isSome) := by
      rcases h with h | h <;> subst h <;> simp
    rw [getAvailableComponents.eq_def, if_neg hni]
    cases inc with
    | none => intro hc; cases hc
    | some l =>
      cases hf : l.find? (fun nm => !components.any (fun c => decide (c.name = nm))) with
      | none =>
        simp only [hf]
        intro hc
        cases hc
      | some nm =>
        simp only [hf]
        intro hc
        cases hc

theorem c8_include_exclude_conflict_witness :
    (getAvailableComponents [] (some []) (some []) = .error .includeExcludeTogether) ∧
    (getAvailableComponents [] none (some []) ≠ .error .includeExcludeTogether) :=
  ⟨(c8_include_exclude_conflict [] (some []) (some [])).1 [] [] rfl rfl,
    (c8_include_exclude_conflict [] none (some [])).2 (Or.inl rfl)⟩

/-- C7 counterexample: an unknown component name in `exclude` does NOT make
`get_available_components` fail — the call returns the unfiltered registry,
contradicting the claim that an unknown component name in include or
exclude raises an error at the Choice level. -/
theorem c7_exclude_unknown_ignored :
    getAvailableComponents [⟨"a".toList, fun _ => true, []⟩] none (some ["zzz".toList]) =
      .ok [⟨"a".toList, fun _ => true, []⟩] := rfl

/- ### autoPyTorchChoice.set_hyperparameters (C3) -/

/-- The reserved selector key of a Choice step. -/
def chKey : Str := "__choice__".toList

/-- The key under which the node's random state is merged. -/
def rsKey : Str := "random_state".toList

/-- The dict `new_params` built by `autoPyTorchChoice.set_hyperparameters`
(base_choice.py lines 125-140): every remaining configuration entry is
assigned under `param.replace(choice, "").replace(":", "")`, then
`init_params` entries are assigned the same way (overriding on collision),
then the node's random state is assigned under `"random_state"`. -/
def choiceNewParams (choice : Str) (seed : Nat) (cfg : Dict) (init : Option Dict) : Dict :=
  let params := eraseKey chKey cfg
  let base := params.foldl (fun d kv => dinsert (stripKey choice kv.1) kv.2 d) []
  let withInit :=
    match init with
    | none => base
    | some ip => ip.foldl (fun d kv => dinsert (stripKey choice kv.1) kv.2 d) base
  dinsert rsKey (CVal.rstate seed) withInit

/-- `autoPyTorchChoice.set_hyperparameters` (base_choice.py lines 108-145):
read the `__choice__` selector, delete it from the params, build
`new_params` by the key rewriting above, instantiate the selected component
via the registry (`self.get_components()[choice](**new_params)`, a KeyError
when the name is unregistered) and store it as `self.choice`.  The result
is `(self.new_params, instantiated component)` with the component modelled
as its registry name paired with the kwargs it received. -/
def choiceSetHyperparameters (components : List Str) (seed : Nat)
    (cfg : Dict) (init : Option Dict) : Except PErr (Dict × (Str × Dict)) :=
  match lookup chKey cfg with
  | none => .error (.keyError chKey)
  | some (CVal.s choice) =>
    let new_params := choiceNewParams choice seed cfg init
    if decide (choice ∈ components) then .ok (new_params, (choice, new_params))
    else .error (.keyError choice)
  | some _ => .error (.typeError chKey)

theorem removeAllFuel_of_not_contains {a : Char} {ps : Str} (fuel : Nat) {s : Str}
    (h : containsSub (a :: ps) s = false) : removeAllFuel a ps fuel s = s := by
  induction fuel generalizing s with
  | zero => rfl
  | succ fuel ih =>
    cases s with
    | nil => rfl
    | cons c rest =>
      simp only [containsSub, Bool.or_eq_false_iff] at h
      have hcond : ¬ (c = a ∧ listPref ps rest = true) := by
        rintro ⟨hc, hp⟩
        subst hc
        simp [listPref, hp] at h
      rw [removeAllFuel, if_neg hcond, ih h.2]

theorem removeAll_of_not_contains {pat s : Str}
    (h : containsSub pat s = false) : removeAll pat s = s := by
  cases pat with
  | nil => rfl
  | cons a ps => exact removeAllFuel_of_not_contains s.length h

theorem containsSub_singleton_of_not_mem {c : Char} {s : Str} (h : c ∉ s) :
    containsSub [c] s = false := by
  induction s with
  | nil => rfl
  | cons x rest ih =>
    simp only [List.mem_cons, not_or] at h
    simp only [containsSub, listPref, Bool.or_eq_false_iff]
    constructor
    · simp [h.1]
    · exact ih h.2

/-- Deleting all occurrences of a non-empty pattern from `pat ++ t` where
the pattern does not occur in `t` leaves exactly `t`. -/
theorem removeAll_self_append {a : Char} {ps t : Str}
    (h : containsSub (a :: ps) t = false) :
    removeAll (a :: ps) ((a :: ps) ++ t) = t := by
  show removeAllFuel a ps ((a :: ps) ++ t).length (a :: (ps ++ t)) = t
  have hlen : ((a :: ps) ++ t).length = (ps ++ t).length + 1 := by simp
  rw [hlen, removeAllFuel, if_pos ⟨rfl, listPref_append ps t⟩, List.drop_left]
  exact removeAllFuel_of_not_contains _ h

/-- When a key is exactly the selected name, a separator colon, and a clean
remainder (no colon, no further occurrence of the name), the rewriting of
`set_hyperparameters` coincides with stripping the name-prefix. -/
theorem stripKey_of_clean {choice r : Str} (hne : choice ≠ [])
    (hocc : containsSub choice (':' :: r) = false) (hcol : ':' ∉ r) :
    stripKey choice (choice ++ ':' :: r) = r := by
  obtain ⟨a, ps, rfl⟩ : ∃ a ps, choice = a :: ps := by
    cases choice with
    | nil => exact absurd rfl hne
    | cons a ps => exact ⟨a, ps, rfl⟩
  rw [stripKey, removeAll_self_append hocc]
  show removeAllFuel ':' [] (':' :: r).length (':' :: r) = r
  simp only [List.length_cons]
  rw [removeAllFuel, if_pos ⟨rfl, rfl⟩]
  simp only [List.length_nil, List.drop_zero]
  exact removeAllFuel_of_not_contains _ (containsSub_singleton_of_not_mem hcol)

theorem foldl_dinsert_stripKey (choice : Str) (l : List (Str × CVal)) (d : Dict) :
    l.foldl (fun d kv => dinsert (stripKey choice kv.1) kv.2 d) d =
      (l.map (fun kv => (stripKey choice kv.1, kv.2))).foldl
        (fun d kv => dinsert kv.1 kv.2 d) d := by
  induction l generalizing d with
  | nil => rfl
  | cons kv rest ih => simp [ih]

/-- What `new_params` contains: the random state under `"random_state"`,
and under every other key the last value written through the
`replace(choice, "").replace(":", "")` rewriting of the configuration
entries followed by the `init_params` entries. -/
theorem lookup_choiceNewParams (choice : Str) (seed : Nat) (cfg : Dict)
    (init : Option Dict) :
    lookup rsKey (choiceNewParams choice seed cfg init) = some (CVal.rstate seed) ∧
    ∀ k, k ≠ rsKey →
      lookup k (choiceNewParams choice seed cfg init) =
        lastLookup k ((eraseKey chKey cfg ++ init.getD []).map
          (fun kv => (stripKey choice kv.1, kv.2))) := by
  have hwi : (match init with
      | none => (eraseKey chKey cfg).foldl
          (fun d kv => dinsert (stripKey choice kv.1) kv.2 d) []
      | some ip => ip.foldl (fun d kv => dinsert (stripKey choice kv.1) kv.2 d)
          ((eraseKey chKey cfg).foldl
            (fun d kv => dinsert (stripKey choice kv.1) kv.2 d) [])) =
      ((eraseKey chKey cfg ++ init.getD []).map
        (fun kv => (stripKey choice kv.1, kv.2))).foldl
          (fun d kv => dinsert kv.1 kv.2 d) [] := by
    cases init with
    | none => simp [foldl_dinsert_stripKey]
    | some ip =>
      show ip.foldl (fun d kv => dinsert (stripKey choice kv.1) kv.2 d)
          ((eraseKey chKey cfg).foldl
            (fun d kv => dinsert (stripKey choice kv.1) kv.2 d) []) =
        ((eraseKey chKey cfg ++ ip).map (fun kv => (stripKey choice kv.1, kv.2))).foldl
          (fun d kv => dinsert kv.1 kv.2 d) []
      rw [← List.foldl_append]
      exact foldl_dinsert_stripKey choice (eraseKey chKey cfg ++ ip) []
  have hcnp : choiceNewParams choice seed cfg init =
      dinsert rsKey (CVal.rstate seed)
        (((eraseKey chKey cfg ++ init.getD []).map
          (fun kv => (stripKey choice kv.1, kv.2))).foldl
            (fun d kv => dinsert kv.1 kv.2 d) []) :=
    congrArg (dinsert rsKey (CVal.rstate seed)) hwi
  constructor
  · rw [hcnp, lookup_dinsert]
    simp
  · intro k hk
    rw [hcnp, lookup_dinsert, if_neg (fun hh => hk hh.symm), lookup_foldl_dinsert]
    cases lastLookup k ((eraseKey chKey cfg ++ init.getD []).map
        (fun kv => (stripKey choice kv.1, kv.2))) with
    | none => rfl
    | some v => rfl

/-- C3 counterexample: for the Choice with registered component `sgd` and
the configuration `{__choice__: sgd, sgd:sgd_momentum: 9}`, the momentum
value is routed under the key `_momentum`, not `sgd_momentum`: the code
deletes every occurrence of the selected name and every colon from the
key, so the claim that exactly the name-prefix is stripped with the rest
of the key left intact is false. -/
theorem c3_strip_counterexample :
    choiceSetHyperparameters ["sgd".toList] 0
        [(chKey, CVal.s "sgd".toList), ("sgd:sgd_momentum".toList, CVal.n 9)] none =
      .ok ([("_momentum".toList, CVal.n 9), (rsKey, CVal.rstate 0)],
        ("sgd".toList, [("_momentum".toList, CVal.n 9), (rsKey, CVal.rstate 0)])) ∧
    lookup "sgd_momentum".toList
        [("_momentum".toList, CVal.n 9), (rsKey, CVal.rstate 0)] = none := by
  constructor
  · rfl
  · rfl

/-- C3 (amended): `autoPyTorchChoice.set_hyperparameters` reads the
selector value, removes the selector key, and maps every remaining key by
deleting ALL occurrences of the selected component's name and ALL colons
(coinciding with stripping the name-prefix once exactly when the remainder
of the key is free of colons and of further occurrences of the name);
merges `init_params` rewritten the same way (overriding on collisions) plus
the node's random state under `"random_state"`; instantiates the selected
component via its registered factory with those parameters; and stores the
instance as `self.choice`. -/
theorem c3_choice_set_hyperparameters_strips_all
    (components : List Str) (seed : Nat) (cfg : Dict) (init : Option Dict)
    (choice : Str) (hch : lookup chKey cfg = some (CVal.s choice))
    (hmem : choice ∈ components) :
    (choiceSetHyperparameters components seed cfg init =
      .ok (choiceNewParams choice seed cfg init,
        (choice, choiceNewParams choice seed cfg init))) ∧
    lookup rsKey (choiceNewParams choice seed cfg init) = some (CVal.rstate seed) ∧
    (∀ k, k ≠ rsKey →
      lookup k (choiceNewParams choice seed cfg init) =
        lastLookup k ((eraseKey chKey cfg ++ init.getD []).map
          (fun kv => (stripKey choice kv.1, kv.2)))) ∧
    (∀ r, choice ≠ [] → containsSub choice (':' :: r) = false → ':' ∉ r →
      stripKey choice (choice ++ ':' :: r) = r) := by
  refine ⟨?_, (lookup_choiceNewParams choice seed cfg init).1,
    (lookup_choiceNewParams choice seed cfg init).2,
    fun r hne hocc hcol => stripKey_of_clean hne hocc hcol⟩
  rw [choiceSetHyperparameters.eq_def, hch]
  simp [hmem]

theorem c3_choice_set_hyperparameters_strips_all_witness :
    (lookup chKey [(chKey, CVal.s "sgd".toList)] = some (CVal.s "sgd".toList)) ∧
    ("sgd".toList ∈ ["sgd".toList]) ∧
    choiceSetHyperparameters ["sgd".toList] 7 [(chKey, CVal.s "sgd".toList)] none =
      .ok (choiceNewParams "sgd".toList 7 [(chKey, CVal.s "sgd".toList)] none,
        ("sgd".toList, choiceNewParams "sgd".toList 7 [(chKey, CVal.s "sgd".toList)] none)) :=
  ⟨rfl, List.mem_singleton.mpr rfl,
    (c3_choice_set_hyperparameters_strips_all ["sgd".toList] 7
      [(chKey, CVal.s "sgd".toList)] none "sgd".toList rfl
      (List.mem_singleton.mpr rfl)).1⟩

/- ### BasePipeline._get_base_search_space (C5, C7) -/

/-- The filtered candidate list of a Choice step under the step's
include/exclude entries (the registry filter of
`get_available_components`). -/
def candComps (inc exc : Option (List Str)) (comps : List CompDesc) : List CompDesc :=
  comps.filter (fun c => keepComp inc exc c.name)

/-- All combinations (one candidate per Choice step), in lexicographic
order of the candidate lists. -/
def crossLists : List (List CompDesc) → List (List CompDesc)
  | [] => [[]]
  | l :: ls => l.flatMap (fun x => (crossLists ls).map (fun combo => x :: combo))

/-- Modelled from the spec: `get_match_array`
(`create_searchspace_util.py`, not under src).  Per spec §4.2 the
compatibility matrix has one dimension per Choice step (candidates after
include/exclude filtering) and a cell is 1 iff the conjunction of the
chosen candidates' applicability predicates holds for the dataset
properties.  Cells are flattened to a list of
(combination of component names, 0/1 value). -/
def getMatchArray (pipeline : List (Str × PNode)) (props : Props)
    (inc exc : List (Str × List Str)) : List (List Str × Nat) :=
  let choiceCandLists := pipeline.filterMap (fun p =>
    match p.2 with
    | PNode.choice comps => some (candComps (lookupS p.1 inc) (lookupS p.1 exc) comps)
    | _ => none)
  (crossLists choiceCandLists).map (fun combo =>
    (combo.map (fun c => c.name),
      if combo.all (fun c => c.applicable props) then 1 else 0))

/-- `np.sum(matches)`. -/
def matchesSum (cells : List (List Str × Nat)) : Nat :=
  (cells.map (fun cell => cell.2)).sum

/-- Modelled from the spec: `find_active_choices`
(`create_searchspace_util.py`, not under src).  Per spec §4.2 a candidate
of the Choice step at choice-position `pos` is active iff it appears in at
least one legal cell. -/
def findActiveChoices (cells : List (List Str × Nat)) (pos : Nat)
    (cands : List CompDesc) : List CompDesc :=
  cands.filter (fun c =>
    cells.any (fun cell => decide (cell.2 = 1) && decide (cell.1.get? pos = some c.name)))

/-- One forbidden-AND clause per zero cell, rendered over the selector=value
pairs of the cell's combination. -/
def renderClause (combo : List Str) : Str :=
  combo.flatMap (fun nm => '&' :: nm)

/-- Modelled from the spec: `add_forbidden`
(`create_searchspace_util.py`, not under src).  Per spec §4.3: emit a
forbidden clause for every zero cell. -/
def addForbidden (cells : List (List Str × Nat)) : List Str :=
  cells.filterMap (fun cell => if cell.2 = 0 then some (renderClause cell.1) else none)

/-- The per-step space assembly loop of `_get_base_search_space`
(base_pipeline.py lines 291-309): a non-Choice step's local space is added
under the step-name namespace directly; a Choice step contributes its local
space restricted to its active choices.  `pos` tracks the step's dimension
in the flattened compatibility matrix. -/
def assembleSteps (props : Props) (inc exc : List (Str × List Str))
    (cells : List (List Str × Nat)) : Nat → List (Str × PNode) → List Str
  | _, [] => []
  | pos, (n, PNode.choice comps) :: rest =>
    (choiceLocalSpace (findActiveChoices cells pos
        (candComps (lookupS n inc) (lookupS n exc) comps))).map (fun h => n ++ ':' :: h) ++
      assembleSteps props inc exc cells (pos + 1) rest
  | pos, (n, node) :: rest =>
    (node.localSpace props).hyperparameters.map (fun h => n ++ ':' :: h) ++
      assembleSteps props inc exc cells pos rest

/-- `BasePipeline._get_base_search_space` (base_pipeline.py lines 247-323):
resolve include/exclude against the pipeline's own maps, reject any
include/exclude key that is not a step name, compute the compatibility
matrix, assert it is non-zero (`"No valid pipeline found."`) and binary,
assemble every step's namespaced sub-space, and add forbidden clauses for
the zero cells when any combination is illegal. -/
def getBaseSearchSpace (selfInclude selfExclude : List (Str × List Str))
    (includeArg excludeArg : Option (List (Str × List Str)))
    (props : Props) (pipeline : List (Str × PNode)) : Except PErr CSpace :=
  let inc := includeArg.getD selfInclude
  let keys := pipeline.map (fun p => p.1)
  match inc.find? (fun kv => !keys.any (fun k => decide (k = kv.1))) with
  | some kv => .error (.invalidIncludeKey kv.1 keys)
  | none =>
    let exc := excludeArg.getD selfExclude
    match exc.find? (fun kv => !keys.any (fun k => decide (k = kv.1))) with
    | some kv => .error (.invalidExcludeKey kv.1 keys)
    | none =>
      let cells := getMatchArray pipeline props inc exc
      if matchesSum cells = 0 then .error .noValidPipeline
      else if cells.length < matchesSum cells then .error .matchesNotBinary
      else .ok
        { hyperparameters := assembleSteps props inc exc cells 0 pipeline
          conditions := []
          forbiddens :=
            if matchesSum cells < cells.length then addForbidden cells else [] }

theorem getMatchArray_cell_le_one (pipeline : List (Str × PNode)) (props : Props)
    (inc exc : List (Str × List Str)) :
    ∀ cell ∈ getMatchArray pipeline props inc exc, cell.2 ≤ 1 := by
  intro cell hcell
  rw [getMatchArray] at hcell
  obtain ⟨combo, _, rfl⟩ := List.mem_map.mp hcell
  by_cases h : combo.all (fun c => c.applicable props) = true <;> simp [h]

theorem sum_le_length_of_le_one {l : List Nat} (h : ∀ x ∈ l, x ≤ 1) :
    l.sum ≤ l.length := by
  induction l with
  | nil => simp
  | cons x rest ih =>
    simp only [List.sum_cons, List.length_cons]
    have hx := h x (List.mem_cons_self _ _)
    have := ih (fun y hy => h y (List.mem_cons_of_mem _ hy))
    omega

theorem matchesSum_le_length (pipeline : List (Str × PNode)) (props : Props)
    (inc exc : List (Str × List Str)) :
    matchesSum (getMatchArray pipeline props inc exc) ≤
      (getMatchArray pipeline props inc exc).length := by
  rw [matchesSum]
  have h := sum_le_length_of_le_one (l :=
    (getMatchArray pipeline props inc exc).map (fun cell => cell.2)) ?_
  · simpa using h
  · intro x hx
    obtain ⟨cell, hcell, rfl⟩ := List.mem_map.mp hx
    exact getMatchArray_cell_le_one pipeline props inc exc cell hcell

theorem find?_invalid_eq_none {keys : List Str} {l : List (Str × List Str)}
    (h : ∀ kv ∈ l, kv.1 ∈ keys) :
    l.find? (fun kv => !keys.any (fun k => decide (k = kv.1))) = none := by
  rw [List.find?_eq_none]
  intro kv hkv
  have : keys.any (fun k => decide (k = kv.1)) = true := by
    rw [List.any_eq_true]
    exact ⟨kv.1, h kv hkv, by simp⟩
  simp [this]

/-- C5: with valid include/exclude step keys, joint-space assembly fails
with the `"No valid pipeline found."` assertion exactly when the
compatibility matrix is entirely zero; when at least one cell is 1 the
assembly proceeds past this check and produces a space. -/
theorem c5_infeasible_matrix
    (selfInc selfExc : List (Str × List Str))
    (incArg excArg : Option (List (Str × List Str)))
    (props : Props) (pipeline : List (Str × PNode))
    (hik : ∀ kv ∈ incArg.getD selfInc, kv.1 ∈ pipeline.map (fun p => p.1))
    (hek : ∀ kv ∈ excArg.getD selfExc, kv.1 ∈ pipeline.map (fun p => p.1)) :
    ((∀ cell ∈ getMatchArray pipeline props (incArg.getD selfInc) (excArg.getD selfExc),
        cell.2 = 0) →
      getBaseSearchSpace selfInc selfExc incArg excArg props pipeline =
        .error .noValidPipeline) ∧
    ((∃ cell ∈ getMatchArray pipeline props (incArg.getD selfInc) (excArg.getD selfExc),
        cell.2 = 1) →
      ∃ cs, getBaseSearchSpace selfInc selfExc incArg excArg props pipeline = .ok cs) := by
  have hrw : getBaseSearchSpace selfInc selfExc incArg excArg props pipeline =
      (if matchesSum (getMatchArray pipeline props (incArg.getD selfInc)
          (excArg.getD selfExc)) = 0 then .error .noValidPipeline
      else if (getMatchArray pipeline props (incArg.getD selfInc)
          (excArg.getD selfExc)).length <
          matchesSum (getMatchArray pipeline props (incArg.getD selfInc)
            (excArg.getD selfExc)) then .error .matchesNotBinary
      else .ok
        { hyperparameters := assembleSteps props (incArg.getD selfInc)
            (excArg.getD selfExc)
            (getMatchArray pipeline props (incArg.getD selfInc) (excArg.getD selfExc))
            0 pipeline
          conditions := []
          forbiddens :=
            if matchesSum (getMatchArray pipeline props (incArg.getD selfInc)
                (excArg.getD selfExc)) <
                (getMatchArray pipeline props (incArg.getD selfInc)
                  (excArg.getD selfExc)).length then
              addForbidden (getMatchArray pipeline props (incArg.getD selfInc)
                (excArg.getD selfExc))
            else [] }) := by
    rw [getBaseSearchSpace.eq_def]
    simp only [find?_invalid_eq_none hik, find?_invalid_eq_none hek]
  constructor
  · intro hzero
    have hsum : matchesSum (getMatchArray pipeline props (incArg.getD selfInc)
        (excArg.getD selfExc)) = 0 := by
      rw [matchesSum, List.sum_eq_zero_iff]
      intro x hx
      obtain ⟨cell, hcell, rfl⟩ := List.mem_map.mp hx
      exact hzero cell hcell
    rw [hrw, if_pos hsum]
  · rintro ⟨cell, hcell, hone⟩
    have hne : matchesSum (getMatchArray pipeline props (incArg.getD selfInc)
        (excArg.getD selfExc)) ≠ 0 := by
      intro hz
      rw [matchesSum, List.sum_eq_zero_iff] at hz
      have := hz cell.2 (List.mem_map_of_mem _ hcell)
      rw [hone] at this
      cases this
    have hbin := matchesSum_le_length pipeline props (incArg.getD selfInc)
      (excArg.getD selfExc)
    rw [hrw, if_neg hne, if_neg (by omega)]
    exact ⟨_, rfl⟩

theorem c5_infeasible_matrix_witness :
    ((∀ kv ∈ (none : Option (List (Str × List Str))).getD [], kv.1 ∈
        ([(("s".toList : Str), PNode.choice [⟨"a".toList, fun _ => false, []⟩])].map
          (fun p => p.1))) ∧
      (∀ cell ∈ getMatchArray
          [(("s".toList : Str), PNode.choice [⟨"a".toList, fun _ => false, []⟩])] []
          ((none : Option (List (Str × List Str))).getD [])
          ((none : Option (List (Str × List Str))).getD []), cell.2 = 0)) ∧
    getBaseSearchSpace [] [] none none []
        [(("s".toList : Str), PNode.choice [⟨"a".toList, fun _ => false, []⟩])] =
      .error .noValidPipeline := by
  refine ⟨⟨by simp, ?_⟩, ?_⟩
  · intro cell hcell
    simp only [getMatchArray, candComps, keepComp, skipByInc, skipByExc, lookupS,
      crossLists, List.filterMap, List.filter, List.flatMap] at hcell
    simp at hcell
    rw [hcell]
  · refine (c5_infeasible_matrix [] [] none none []
      [(("s".toList : Str), PNode.choice [⟨"a".toList, fun _ => false, []⟩])]
      (by simp) (by simp)).1 ?_
    intro cell hcell
    simp only [getMatchArray, candComps, keepComp, skipByInc, skipByExc, lookupS,
      crossLists, List.filterMap, List.filter, List.flatMap] at hcell
    simp at hcell
    rw [hcell]

/-- C7 (amended): an include or exclude key that is not a step name makes
`_get_base_search_space` fail with the invalid-key error before the
compatibility matrix is consulted; at the Choice level an unknown component
name in `include` makes `get_available_components` fail before the filtered
mapping is returned, while unknown names in `exclude` are silently ignored
(the filtered registry is returned without error). -/
theorem c7_invalid_include_exclude
    (selfInc selfExc : List (Str × List Str))
    (incArg excArg : Option (List (Str × List Str)))
    (props : Props) (pipeline : List (Str × PNode))
    (components : List CompDesc) (l : List Str) :
    ((∃ kv ∈ incArg.getD selfInc, kv.1 ∉ pipeline.map (fun p => p.1)) →
      ∃ k, getBaseSearchSpace selfInc selfExc incArg excArg props pipeline =
        .error (.invalidIncludeKey k (pipeline.map (fun p => p.1)))) ∧
    ((∀ kv ∈ incArg.getD selfInc, kv.1 ∈ pipeline.map (fun p => p.1)) →
      (∃ kv ∈ excArg.getD selfExc, kv.1 ∉ pipeline.map (fun p => p.1)) →
      ∃ k, getBaseSearchSpace selfInc selfExc incArg excArg props pipeline =
        .error (.invalidExcludeKey k (pipeline.map (fun p => p.1)))) ∧
    ((∃ nm ∈ l, ∀ c ∈ components, c.name ≠ nm) →
      ∃ nm', getAvailableComponents components (some l) none =
        .error (.unknownComponent nm')) ∧
    (getAvailableComponents components none (some l) =
      .ok (components.filter (fun c => keepComp none (some l) c.name))) := by
  refine ⟨?_, ?_, ?_, rfl⟩
  · rintro ⟨kv, hkv, hnot⟩
    cases hf : (incArg.getD selfInc).find?
        (fun kv => !(pipeline.map (fun p => p.1)).any (fun k => decide (k = kv.1))) with
    | none =>
      exfalso
      rw [List.find?_eq_none] at hf
      have hfy := hf kv hkv
      have hany : (pipeline.map (fun p => p.1)).any (fun k => decide (k = kv.1)) = false := by
        rw [List.any_eq_false]
        intro x hx
        simp only [decide_eq_true_eq]
        intro he
        exact hnot (he ▸ hx)
      simp [hany] at hfy
    | some kv' =>
      refine ⟨kv'.1, ?_⟩
      rw [getBaseSearchSpace.eq_def]
      simp only [hf]
  · intro hik
    rintro ⟨kv, hkv, hnot⟩
    cases hf : (excArg.getD selfExc).find?
        (fun kv => !(pipeline.map (fun p => p.1)).any (fun k => decide (k = kv.1))) with
    | none =>
      exfalso
      rw [List.find?_eq_none] at hf
      have hfy := hf kv hkv
      have hany : (pipeline.map (fun p => p.1)).any (fun k => decide (k = kv.1)) = false := by
        rw [List.any_eq_false]
        intro x hx
        simp only [decide_eq_true_eq]
        intro he
        exact hnot (he ▸ hx)
      simp [hany] at hfy
    | some kv' =>
      refine ⟨kv'.1, ?_⟩
      rw [getBaseSearchSpace.eq_def]
      simp only [find?_invalid_eq_none hik, hf]
  · rintro ⟨nm, hnm, hall⟩
    cases hf : l.find? (fun nm => !components.any (fun c => decide (c.name = nm))) with
    | none =>
      exfalso
      rw [List.find?_eq_none] at hf
      have hfy := hf nm hnm
      have hany : components.any (fun c => decide (c.name = nm)) = false := by
        rw [List.any_eq_false]
        intro c hc
        simp only [decide_eq_true_eq]
        exact hall c hc
      simp [hany] at hfy
    | some nm' =>
      refine ⟨nm', ?_⟩
      rw [getAvailableComponents.eq_def]
      simp only [hf]
      rfl

theorem c7_invalid_include_exclude_witness :
    (("bad".toList, ([] : List Str)) ∈ [("bad".toList, ([] : List Str))] ∧
      "bad".toList ∉ (([] : List (Str × PNode)).map (fun p => p.1))) ∧
    ∃ k, getBaseSearchSpace [] [] (some [("bad".toList, ([] : List Str))]) none [] [] =
      .error (.invalidIncludeKey k (([] : List (Str × PNode)).map (fun p => p.1))) :=
  ⟨⟨by simp, by simp⟩,
    (c7_invalid_include_exclude [] [] (some [("bad".toList, ([] : List Str))]) none [] []
      [] []).1 ⟨("bad".toList, ([] : List Str)), by simp, by simp⟩⟩

/- ### BasePipeline.get_hyperparameter_search_space memoization (C2) -/

/-- The pipeline-instance state relevant to space construction: the cached
joint space (absent before the first build), the dataset properties, the
include/exclude maps and the steps. -/
structure PState where
  config_space : Option CSpace
  dataset_properties : Props
  inc : List (Str × List Str)
  exc : List (Str × List Str)
  steps : List (Str × PNode)

/-- `BasePipeline.get_hyperparameter_search_space` (base_pipeline.py lines
192-202): if `self.config_space` is absent or None build it via the shared
base assembly (`_get_hyperparameter_search_space` is abstract; its concrete
implementations delegate to `_get_base_search_space` with the instance's
own dataset properties, include and exclude) and cache it; otherwise return
the cached space.  The returned pair is (space, pipeline state after the
call). -/
def getHyperparameterSearchSpace (st : PState) : Except PErr (CSpace × PState) :=
  match st.config_space with
  | some cs => .ok (cs, st)
  | none =>
    match getBaseSearchSpace st.inc st.exc none none st.dataset_properties st.steps with
    | .ok cs => .ok (cs, { st with config_space := some cs })
    | .error e => .error e

/-- C2: the joint space is computed at most once per pipeline instance — a
successful call leaves the space cached and every later call returns the
cached space with the state unchanged; a call on an instance that already
has a cached space returns it unchanged; and two instances with equal
steps, dataset properties, include and exclude (and no cache) obtain
structurally identical spaces. -/
theorem c2_search_space_memoized (st : PState) :
    (∀ cs st', getHyperparameterSearchSpace st = .ok (cs, st') →
      st'.config_space = some cs ∧
      getHyperparameterSearchSpace st' = .ok (cs, st')) ∧
    (∀ cs, st.config_space = some cs →
      getHyperparameterSearchSpace st = .ok (cs, st)) ∧
    (∀ st₂ cs₁ st₁' cs₂ st₂', st.steps = st₂.steps →
      st.dataset_properties = st₂.dataset_properties →
      st.inc = st₂.inc → st.exc = st₂.exc →
      getHyperparameterSearchSpace st = .ok (cs₁, st₁') →
      getHyperparameterSearchSpace st₂ = .ok (cs₂, st₂') →
      st.config_space = none → st₂.config_space = none →
      cs₁ = cs₂) := by
  refine ⟨?_, ?_, ?_⟩
  · intro cs st' h
    cases hc : st.config_space with
    | some cs₀ =>
      rw [getHyperparameterSearchSpace, hc] at h
      obtain ⟨h1, h2⟩ : cs₀ = cs ∧ st = st' := by
        cases h
        exact ⟨rfl, rfl⟩
      subst h1
      subst h2
      exact ⟨hc, by rw [getHyperparameterSearchSpace, hc]⟩
    | none =>
      rw [getHyperparameterSearchSpace, hc] at h
      cases hb : getBaseSearchSpace st.inc st.exc none none st.dataset_properties
          st.steps with
      | ok cs₀ =>
        rw [hb] at h
        obtain ⟨h1, h2⟩ : cs₀ = cs ∧ { st with config_space := some cs₀ } = st' := by
          cases h
          exact ⟨rfl, rfl⟩
        subst h1
        subst h2
        exact ⟨rfl, by rw [getHyperparameterSearchSpace]⟩
      | error e =>
        rw [hb] at h
        cases h
  · intro cs hc
    rw [getHyperparameterSearchSpace, hc]
  · intro st₂ cs₁ st₁' cs₂ st₂' hsteps hprops hinc hexc h₁ h₂ hc₁ hc₂
    rw [getHyperparameterSearchSpace, hc₁, hsteps, hprops, hinc, hexc] at h₁
    rw [getHyperparameterSearchSpace, hc₂] at h₂
    cases hb : getBaseSearchSpace st₂.inc st₂.exc none none st₂.dataset_properties
        st₂.steps with
    | ok cs₀ =>
      rw [hb] at h₁ h₂
      cases h₁
      cases h₂
      rfl
    | error e =>
      rw [hb] at h₁
      cases h₁

theorem c2_search_space_memoized_witness :
    (PState.mk (some ⟨[], [], []⟩) [] [] [] []).config_space = some ⟨[], [], []⟩ ∧
    getHyperparameterSearchSpace (PState.mk (some ⟨[], [], []⟩) [] [] [] []) =
      .ok (⟨[], [], []⟩, PState.mk (some ⟨[], [], []⟩) [] [] [] []) :=
  ⟨rfl, (c2_search_space_memoized (PState.mk (some ⟨[], [], []⟩) [] [] [] [])).2.1
    ⟨[], [], []⟩ rfl⟩

/- ### BasePipeline.__init__ configuration validation (C6) -/

/-- Modelled from ConfigSpace: `str(ConfigurationSpace)` renders one line
per hyperparameter, condition and forbidden clause — a faithful printer of
exactly the data `__eq__` compares.  Lines of different sections carry
distinct leading tags. -/
def renderCS (cs : CSpace) : List Str :=
  cs.hyperparameters.map (fun s => 'H' :: s) ++
    cs.conditions.map (fun s => 'C' :: s) ++
    cs.forbiddens.map (fun s => 'F' :: s)

/-- Recover the lines of one section from a rendering. -/
def getTag (t : Char) (line : Str) : Option Str :=
  match line with
  | c :: rest => if c = t then some rest else none
  | [] => none

/-- Modelled from difflib: `unified_diff` emits no lines when the two line
sequences are equal, and otherwise at least the two file-header lines
followed by the change markers. -/
def unifiedDiff (a b : List Str) : List Str :=
  if a = b then []
  else "--- ".toList :: "+++ ".toList ::
    (a.map (fun line => '-' :: line) ++ b.map (fun line => '+' :: line))

/-- `ConfigurationSpace.get_default_configuration()`: some configuration
built against the space itself (its values are irrelevant here). -/
def defaultConfiguration (cs : CSpace) : Configuration := ⟨cs, []⟩

/-- The configuration-validation fragment of `BasePipeline.__init__`
(base_pipeline.py lines 70-89): no config → the space's default; a config
built against a different space → `ValueError` carrying the textual
unified diff of the two spaces' renderings; a config built against the
pipeline's own space → accepted. -/
def initConfig (ownSpace : CSpace) (config : Option Configuration) :
    Except PErr Configuration :=
  match config with
  | none => .ok (defaultConfiguration ownSpace)
  | some c =>
    if ownSpace ≠ c.space then
      .error (.configSpaceMismatch (unifiedDiff (renderCS ownSpace) (renderCS c.space)))
    else .ok c

theorem filterMap_getTag_map_same (t : Char) (l : List Str) :
    (l.map (fun s => t :: s)).filterMap (getTag t) = l := by
  induction l with
  | nil => rfl
  | cons s rest ih => simp [getTag, ih]

theorem filterMap_getTag_map_other {t t' : Char} (h : ¬ t' = t) (l : List Str) :
    (l.map (fun s => t' :: s)).filterMap (getTag t) = [] := by
  induction l with
  | nil => rfl
  | cons s rest ih => simp [getTag, h, ih]

theorem filterMap_getTag_comp (t : Char) (l : List Str) :
    l.filterMap (getTag t ∘ fun s => t :: s) = l := by
  induction l with
  | nil => rfl
  | cons s rest ih => simp [Function.comp, getTag, List.filterMap_cons, ih]

/-- The rendering is injective: each field is recoverable from the lines. -/
theorem renderCS_inj {cs₁ cs₂ : CSpace} (h : renderCS cs₁ = renderCS cs₂) :
    cs₁ = cs₂ := by
  have hrec : ∀ cs : CSpace,
      (renderCS cs).filterMap (getTag 'H') = cs.hyperparameters ∧
      (renderCS cs).filterMap (getTag 'C') = cs.conditions ∧
      (renderCS cs).filterMap (getTag 'F') = cs.forbiddens := by
    intro cs
    refine ⟨?_, ?_, ?_⟩ <;>
      simp [renderCS, List.filterMap_append, filterMap_getTag_map_same,
        filterMap_getTag_map_other (show ¬ ('H' : Char) = 'C' by decide),
        filterMap_getTag_map_other (show ¬ ('H' : Char) = 'F' by decide),
        filterMap_getTag_map_other (show ¬ ('C' : Char) = 'H' by decide),
        filterMap_getTag_map_other (show ¬ ('C' : Char) = 'F' by decide),
        filterMap_getTag_map_other (show ¬ ('F' : Char) = 'H' by decide),
        filterMap_getTag_map_other (show ¬ ('F' : Char) = 'C' by decide),
        filterMap_getTag_comp]
  obtain ⟨h1, h2, h3⟩ := hrec cs₁
  obtain ⟨g1, g2, g3⟩ := hrec cs₂
  cases cs₁ with
  | mk hp₁ co₁ fo₁ =>
    cases cs₂ with
    | mk hp₂ co₂ fo₂ =>
      simp only at h1 h2 h3 g1 g2 g3
      have e1 : hp₁ = hp₂ := by rw [← h1, ← g1, h]
      have e2 : co₁ = co₂ := by rw [← h2, ← g2, h]
      have e3 : fo₁ = fo₂ := by rw [← h3, ← g3, h]
      rw [e1, e2, e3]

/-- C6: constructing a pipeline with a configuration built against a space
different from the pipeline's own joint space fails immediately with an
error carrying the textual diff of the two spaces' renderings, and that
diff is non-empty; a configuration built against the pipeline's own space
is accepted. -/
theorem c6_config_space_mismatch (ownSpace : CSpace) (c : Configuration) :
    (c.space ≠ ownSpace →
      initConfig ownSpace (some c) =
        .error (.configSpaceMismatch
          (unifiedDiff (renderCS ownSpace) (renderCS c.space))) ∧
      unifiedDiff (renderCS ownSpace) (renderCS c.space) ≠ []) ∧
    (c.space = ownSpace → initConfig ownSpace (some c) = .ok c) := by
  constructor
  · intro hne
    have hne' : ownSpace ≠ c.space := fun hh => hne hh.symm
    constructor
    · rw [initConfig, if_pos hne']
    · have hrne : renderCS ownSpace ≠ renderCS c.space :=
        fun hh => hne' (renderCS_inj hh)
      rw [unifiedDiff, if_neg hrne]
      intro hh
      cases hh
  · intro he
    have : ¬ ownSpace ≠ c.space := fun hh => hh he.symm
    rw [initConfig, if_neg this]

theorem c6_config_space_mismatch_witness :
    ((Configuration.mk ⟨[], [], []⟩ []).space ≠ (⟨["a".toList], [], []⟩ : CSpace)) ∧
    initConfig (⟨["a".toList], [], []⟩ : CSpace) (some (Configuration.mk ⟨[], [], []⟩ [])) =
      .error (.configSpaceMismatch
        (unifiedDiff (renderCS (⟨["a".toList], [], []⟩ : CSpace))
          (renderCS (⟨[], [], []⟩ : CSpace)))) :=
  ⟨by decide,
    ((c6_config_space_mismatch (⟨["a".toList], [], []⟩ : CSpace)
      (Configuration.mk ⟨[], [], []⟩ [])).1 (by decide)).1⟩

/- ### BasePipeline.predict batching (C4) -/

/-- Slice assignment `y[i : i + len(vals)] = vals` on a list. -/
def writeSlice (y : List β) (i : Nat) (vals : List β) : List β :=
  y.take i ++ vals ++ y.drop (i + vals.length)

/-- `max(1, int(np.ceil(float(n) / batch_size)))` (base_pipeline.py line
141), for a positive integer batch size. -/
def numBatches (n bs : Nat) : Nat := max 1 ((n + bs - 1) / bs)

/-- The batched branch of `BasePipeline.predict` (base_pipeline.py lines
134-146), for a deterministic fitted pipeline whose full chain applies a
per-row prediction function `f`: pre-allocate a zero-initialized output
with one entry per input row (shaped by the number of prediction targets;
`z` is the zero of the per-row output shape), then for each chunk index `k`
write `predict(X[k*bs : min((k+1)*bs, n)], batch_size=None)` into the
corresponding output slice. -/
def predictBatched (f : α → β) (z : β) (rows : List α) (bs : Nat) : List β :=
  (List.range (numBatches rows.length bs)).foldl
    (fun y k => writeSlice y (k * bs) (((rows.drop (k * bs)).take bs).map f))
    (List.replicate rows.length z)

/-- `BasePipeline.predict` (base_pipeline.py lines 113-146): with no batch
size the full chain runs at once (per-row application of `f`); with a
non-positive batch size a `ValueError`; otherwise the batched branch. -/
def predict (f : α → β) (z : β) (rows : List α) (batch_size : Option Int) :
    Except PErr (List β) :=
  match batch_size with
  | none => .ok (rows.map f)
  | some bs =>
    if bs ≤ 0 then .error (.invalidBatchSize bs)
    else .ok (predictBatched f z rows bs.toNat)

/-- Overwriting a slice that starts exactly at the boundary between a
prefix and a suffix. -/
theorem writeSlice_eq (A R vals : List β) (i : Nat) (hi : i = A.length) :
    writeSlice (A ++ R) i vals = A ++ vals ++ R.drop vals.length := by
  subst hi
  rw [writeSlice, List.take_left, List.drop_append]

/-- Loop invariant of the batched branch: after the first `m` chunks the
output holds the predictions of the first `m * bs` rows followed by the
untouched zero-initialized tail. -/
theorem predictBatched_invariant (f : α → β) (z : β) (rows : List α) (bs : Nat)
    (_hbs : 0 < bs) (m : Nat) :
    (List.range m).foldl
        (fun y k => writeSlice y (k * bs) (((rows.drop (k * bs)).take bs).map f))
        (List.replicate rows.length z) =
      (rows.take (m * bs)).map f ++ List.replicate (rows.length - m * bs) z := by
  induction m with
  | zero => simp
  | succ m ih =>
    rw [List.range_succ, List.foldl_append, List.foldl_cons, List.foldl_nil, ih]
    have hAlen : ((rows.take (m * bs)).map f).length = min (m * bs) rows.length := by
      rw [List.length_map, List.length_take]
    by_cases hge : rows.length ≤ m * bs
    · have hdrop : rows.drop (m * bs) = [] := List.drop_eq_nil_of_le hge
      have hge' : rows.length ≤ (m + 1) * bs :=
        le_trans hge (Nat.mul_le_mul_right bs (Nat.le_succ m))
      have h0 : rows.length - m * bs = 0 := by omega
      have h0' : rows.length - (m + 1) * bs = 0 := by omega
      rw [List.take_of_length_le hge, List.take_of_length_le hge', hdrop, h0, h0']
      simp only [List.take_nil, List.map_nil, List.replicate_zero, List.append_nil]
      rw [writeSlice]
      simp only [List.length_nil, Nat.add_zero, List.append_nil]
      rw [List.take_of_length_le (by simpa using hge),
        List.drop_eq_nil_of_le (by simpa using hge)]
      simp
    · push_neg at hge
      have hAlen' : m * bs = ((rows.take (m * bs)).map f).length := by
        rw [hAlen]
        omega
      rw [writeSlice_eq ((rows.take (m * bs)).map f)
        (List.replicate (rows.length - m * bs) z)
        (((rows.drop (m * bs)).take bs).map f) (m * bs) hAlen']
      rw [List.drop_replicate]
      have hvlen : ((((rows.drop (m * bs)).take bs)).map f).length =
          min bs (rows.length - m * bs) := by
        rw [List.length_map, List.length_take, List.length_drop]
      have htake : (rows.take ((m + 1) * bs)).map f =
          (rows.take (m * bs)).map f ++ ((rows.drop (m * bs)).take bs).map f := by
        rw [show (m + 1) * bs = m * bs + bs by ring, List.take_add, List.map_append]
      rw [htake]
      have hcount : rows.length - m * bs - ((((rows.drop (m * bs)).take bs)).map f).length
          = rows.length - (m + 1) * bs := by
        rw [hvlen]
        have hmul : (m + 1) * bs = m * bs + bs := by ring
        omega
      rw [hcount]

/-- C4: for a deterministic fitted pipeline (per-row prediction function
`f`), any input with at least one row and any positive integer batch size,
`predict(X, batch_size)` equals `predict(X, batch_size=None)` row for row,
both being the per-row predictions in order. -/
theorem c4_predict_batched_eq (f : α → β) (z : β) (rows : List α) (bs : Nat)
    (hbs : 0 < bs) (hrows : 1 ≤ rows.length) :
    predict f z rows (some (bs : Int)) = .ok (rows.map f) ∧
    predict f z rows none = .ok (rows.map f) := by
  refine ⟨?_, rfl⟩
  have hpos : ¬ ((bs : Int) ≤ 0) := by
    simp only [not_le]
    exact_mod_cast hbs
  rw [predict, if_neg hpos, Int.toNat_natCast]
  have hcover : rows.length ≤ numBatches rows.length bs * bs := by
    rw [numBatches]
    have hsum : rows.length + bs - 1 = (rows.length - 1) + bs := by omega
    rw [hsum, Nat.add_div_right _ hbs]
    rw [Nat.max_eq_right (Nat.le_add_left 1 ((rows.length - 1) / bs))]
    have h1 := Nat.div_add_mod (rows.length - 1) bs
    have h2 := Nat.mod_lt (rows.length - 1) hbs
    have hexp : ((rows.length - 1) / bs + 1) * bs = bs * ((rows.length - 1) / bs) + bs := by
      ring
    omega
  rw [predictBatched, predictBatched_invariant f z rows bs hbs]
  rw [List.take_of_length_le hcover]
  have : rows.length - numBatches rows.length bs * bs = 0 := by omega
  rw [this]
  simp

theorem c4_predict_batched_eq_witness :
    (0 < 4 ∧ 1 ≤ ([1, 2, 3, 4, 5, 6, 7, 8, 9, 10] : List Int).length) ∧
    predict (fun x : Int => x + 1) 0 [1, 2, 3, 4, 5, 6, 7, 8, 9, 10] (some ((4 : Nat) : Int)) =
      .ok ([1, 2, 3, 4, 5, 6, 7, 8, 9, 10].map (fun x : Int => x + 1)) :=
  ⟨⟨by decide, by decide⟩,
    (c4_predict_batched_eq (fun x : Int => x + 1) 0 [1, 2, 3, 4, 5, 6, 7, 8, 9, 10] 4
      (by decide) (by decide)).1⟩

/- ### BaseDataset: split caching (C9) and output shape (C10) -/

/-- A Python value as compared by `==`: values of different types (here a
shape tuple and an int) are never equal. -/
inductive PyVal where
  | pint (n : Int)
  | ptuple (t : List Int)
deriving DecidableEq, Repr

/-- Python `==` between the modelled values: same-type comparison is
structural, cross-type comparison is False. -/
def pyEq : PyVal → PyVal → Bool
  | .pint a, .pint b => decide (a = b)
  | .ptuple a, .ptuple b => decide (a = b)
  | _, _ => false

/-- `self.output_shape: int = train_tensors[1].shape[1] if
train_tensors[1].shape == 2 else 1` (base_dataset.py line 95): the guard
compares the target's shape tuple with the integer 2. -/
def outputShape (targetShape : List Int) : Int :=
  if pyEq (.ptuple targetShape) (.pint 2) then targetShape.getD 1 0 else 1

/-- `np.random.RandomState(seed)`, modelled as a deterministic stream whose
`uses` counter advances on every draw. -/
structure RandState where
  seed : Nat
  uses : Nat
deriving DecidableEq, Repr

/-- A deterministic permutation of `range n` drawn from the state (a
rotation determined by seed and draw index), advancing the stream. -/
def permutation (r : RandState) (n : Nat) : List Nat × RandState :=
  ((List.range n).map (fun i => (i + r.seed + r.uses) % n), ⟨r.seed, r.uses + 1⟩)

/-- `BaseDataset._get_indices` (base_dataset.py lines 182-187): a fresh
permutation when shuffling, else `np.arange`. -/
def getIndices (rand : RandState) (shuffle : Bool) (n : Nat) :
    List Nat × RandState :=
  if shuffle then permutation rand n else (List.range n, rand)

/-- The two resampling-strategy families of `base_dataset.py`. -/
inductive ResamplingStrategy where
  | holdout
  | crossVal
deriving DecidableEq, Repr

/-- Modelled from the spec: a holdout validator function
(`resampling_strategy.py` is not under src) takes the validation share and
the index permutation and returns one (train, validation) partition. -/
def holdoutValidator (val_share : Rat) (indices : List Nat) :
    List Nat × List Nat :=
  let m := (val_share * indices.length).floor.toNat
  (indices.drop m, indices.take m)

/-- Modelled from the spec: a cross-validation function
(`resampling_strategy.py` is not under src) returns one (train,
validation) partition per fold. -/
def crossValidator (k : Nat) (indices : List Nat) :
    List (List Nat × List Nat) :=
  (List.range k).map (fun i =>
    ((indices.enum.filter (fun p => decide (¬ p.1 % k = i))).map Prod.snd,
      (indices.enum.filter (fun p => decide (p.1 % k = i))).map Prod.snd))

/-- The dataset-instance state relevant to resampling: sizes, the random
stream, and the splits cached at construction. -/
structure DatasetState where
  nRows : Nat
  rand : RandState
  shuffle : Bool
  splits : List (List Nat × List Nat)
  output_shape : Int
deriving DecidableEq, Repr

/-- `BaseDataset.__init__` (base_dataset.py lines 61-117) for a dataset
carrying a target tensor: derive `output_shape` from the target's shape and
compute the resampling splits exactly once via
`get_splits_from_resampling_strategy` (holdout: one partition from the
validator after the `val_share` range check; cross-validation: one
partition per fold).  The default `val_share`/`num_splits` stand in for
`DEFAULT_RESAMPLING_PARAMETERS` (not under src). -/
def mkDataset (nRows : Nat) (targetShape : List Int)
    (strategy : ResamplingStrategy) (valShareArg : Option Rat)
    (numSplitsArg : Option Nat) (shuffle : Bool) (seed : Nat) :
    Except PErr DatasetState :=
  let rand0 : RandState := ⟨seed, 0⟩
  match strategy with
  | .holdout =>
    let vs := valShareArg.getD (33 / 100 : Rat)
    if vs < 0 ∨ 1 < vs then .error .invalidValShare
    else
      let p := getIndices rand0 shuffle nRows
      let tv := holdoutValidator vs p.1
      .ok { nRows := nRows, rand := p.2, shuffle := shuffle,
            splits := [(tv.1, tv.2)], output_shape := outputShape targetShape }
  | .crossVal =>
    let k := numSplitsArg.getD 5
    let p := getIndices rand0 shuffle nRows
    .ok { nRows := nRows, rand := p.2, shuffle := shuffle,
          splits := crossValidator k p.1, output_shape := outputShape targetShape }

/-- `BaseDataset.get_dataset_for_training` (base_dataset.py lines 267-282):
read `self.splits[split_id]` and wrap the cached train/validation index
partitions in `TransformSubset` views (modelled as the indices plus the
train flag).  The dataset state is returned unchanged alongside. -/
def getDatasetForTraining (ds : DatasetState) (split_id : Nat) :
    Option ((List Nat × Bool) × (List Nat × Bool)) × DatasetState :=
  match ds.splits.get? split_id with
  | some sp => (some ((sp.1, true), (sp.2, false)), ds)
  | none => (none, ds)

/-- C9: the resampling splits are computed exactly once, at dataset
construction (the random stream is consumed exactly by the single
construction-time `_get_indices` call), and cached; every
`get_dataset_for_training(split_id)` call reads the cached splits, leaves
the dataset state (including the random stream) unchanged, and therefore
repeated fits observe identical train/validation index partitions. -/
theorem c9_splits_cached (nRows : Nat) (targetShape : List Int)
    (strategy : ResamplingStrategy) (valShareArg : Option Rat)
    (numSplitsArg : Option Nat) (shuffle : Bool) (seed : Nat)
    (ds : DatasetState)
    (h : mkDataset nRows targetShape strategy valShareArg numSplitsArg
      shuffle seed = .ok ds) :
    (ds.rand.uses = if shuffle then 1 else 0) ∧
    (∀ i, (getDatasetForTraining ds i).2 = ds) ∧
    (∀ i, (getDatasetForTraining ds i).1 =
      (ds.splits.get? i).map (fun sp => ((sp.1, true), (sp.2, false)))) ∧
    (∀ i, getDatasetForTraining ((getDatasetForTraining ds i).2) i =
      getDatasetForTraining ds i) := by
  have hr : ds.rand.uses = if shuffle then 1 else 0 := by
    cases strategy with
    | holdout =>
      rw [mkDataset] at h
      by_cases hvs : (valShareArg.getD (33 / 100 : Rat) < 0 ∨
          1 < valShareArg.getD (33 / 100 : Rat))
      · rw [if_pos hvs] at h
        cases h
      · rw [if_neg hvs] at h
        cases h
        cases hsh : shuffle <;> simp [getIndices, hsh, permutation]
    | crossVal =>
      rw [mkDataset] at h
      cases h
      cases hsh : shuffle <;> simp [getIndices, hsh, permutation]
  refine ⟨hr, ?_, ?_, ?_⟩
  · intro i
    rw [getDatasetForTraining]
    cases ds.splits.get? i <;> rfl
  · intro i
    rw [getDatasetForTraining]
    cases ds.splits.get? i <;> rfl
  · intro i
    have h2 : (getDatasetForTraining ds i).2 = ds := by
      rw [getDatasetForTraining]
      cases ds.splits.get? i <;> rfl
    rw [h2]

theorem c9_splits_cached_witness :
    (mkDataset 3 [3] .crossVal none (some 2) false 0 =
      .ok ⟨3, ⟨0, 0⟩, false, [([1], [0, 2]), ([0, 2], [1])], 1⟩) ∧
    (⟨3, ⟨0, 0⟩, false, [([1], [0, 2]), ([0, 2], [1])], 1⟩ :
      DatasetState).rand.uses = if false then 1 else 0 :=
  ⟨rfl,
    (c9_splits_cached 3 [3] .crossVal none (some 2) false 0
      ⟨3, ⟨0, 0⟩, false, [([1], [0, 2]), ([0, 2], [1])], 1⟩ rfl).1⟩

/-- C10: for every successfully constructed dataset with a target tensor,
`output_shape` equals 1 regardless of the target's dimensionality, because
the guard `train_tensors[1].shape == 2` compares a tuple with an int and
can never hold. -/
theorem c10_output_shape_always_one (targetShape : List Int) :
    pyEq (.ptuple targetShape) (.pint 2) = false ∧
    outputShape targetShape = 1 ∧
    (∀ nRows strategy valShareArg numSplitsArg shuffle seed ds,
      mkDataset nRows targetShape strategy valShareArg numSplitsArg
        shuffle seed = .ok ds →
      ds.output_shape = 1) := by
  have hguard : pyEq (.ptuple targetShape) (.pint 2) = false := rfl
  have hos : outputShape targetShape = 1 := by
    rw [outputShape, hguard]
    simp
  refine ⟨hguard, hos, ?_⟩
  intro nRows strategy valShareArg numSplitsArg shuffle seed ds h
  cases strategy with
  | holdout =>
    rw [mkDataset] at h
    by_cases hvs : (valShareArg.getD (33 / 100 : Rat) < 0 ∨
        1 < valShareArg.getD (33 / 100 : Rat))
    · rw [if_pos hvs] at h
      cases h
    · rw [if_neg hvs] at h
      cases h
      exact hos
  | crossVal =>
    rw [mkDataset] at h
    cases h
    exact hos

theorem c10_output_shape_always_one_witness :
    (mkDataset 2 [2, 4] .crossVal none (some 2) false 0 =
      .ok ⟨2, ⟨0, 0⟩, false, [([1], [0]), ([0], [1])], 1⟩) ∧
    (⟨2, ⟨0, 0⟩, false, [([1], [0]), ([0], [1])], 1⟩ :
      DatasetState).output_shape = 1 :=
  ⟨rfl,
    (c10_output_shape_always_one [2, 4]).2.2 2 .crossVal none (some 2) false 0
      ⟨2, ⟨0, 0⟩, false, [([1], [0]), ([0], [1])], 1⟩ rfl⟩

end AutoPT
